import Mathlib

/-
Verification development for the procedural 3D vertex-label visualization
engine of the animated-website repository.

The TypeScript source computes with IEEE doubles over the golden ratio
phi = (1 + sqrt 5) / 2.  The embedding models that arithmetic exactly:
raw vertex coordinates live in the ring Z[phi] (`GoldenInt`), and the
normalised, radius-scaled vertices live in the real numbers via
`GoldenInt.toReal`.  Stateful React code (label assignment, rotation
state, per-frame effects) is embedded as explicit state-passing
functions; `Math.random()` draws become function arguments supplying
the drawn values.
-/

namespace AnimatedWebsite

/-- Elements a + b * phi of the ring Z[phi], phi the golden ratio.
All raw vertex coordinates emitted by the generators lie in this ring. -/
structure GoldenInt where
  a : ℤ
  b : ℤ
deriving DecidableEq, Repr

instance : Add GoldenInt := ⟨fun g h => ⟨g.a + h.a, g.b + h.b⟩⟩

instance : Neg GoldenInt := ⟨fun g => ⟨-g.a, -g.b⟩⟩

instance : Sub GoldenInt := ⟨fun g h => ⟨g.a - h.a, g.b - h.b⟩⟩

/-- Multiplication in Z[phi], using phi ^ 2 = phi + 1. -/
instance : Mul GoldenInt := ⟨fun g h =>
  ⟨g.a * h.a + g.b * h.b, g.a * h.b + g.b * h.a + g.b * h.b⟩⟩

/-- Shorthand constructor for a + b * phi. -/
def gi (a b : ℤ) : GoldenInt := ⟨a, b⟩

/-- The golden ratio, as the source computes it: (1 + Math.sqrt(5)) / 2. -/
noncomputable def goldenPhi : ℝ := (1 + Real.sqrt 5) / 2

/-- Real value of a Z[phi] element. -/
noncomputable def GoldenInt.toReal (g : GoldenInt) : ℝ := g.a + g.b * goldenPhi

/-- Raw vertex: a coordinate triple in Z[phi]. -/
structure V3 where
  x : GoldenInt
  y : GoldenInt
  z : GoldenInt
deriving DecidableEq, Repr

/-- Squared Euclidean norm of a raw vertex, exactly in Z[phi]. -/
def gNormSq (v : V3) : GoldenInt := v.x * v.x + v.y * v.y + v.z * v.z

/-- Sign-combination block of getC60Vertices: for a base point p the source
pushes the eight points (+-p0, +-p1, +-p2) in this exact order. -/
def signs8 (p : V3) : List V3 :=
  [⟨p.x, p.y, p.z⟩, ⟨p.x, p.y, -p.z⟩,
   ⟨p.x, -p.y, p.z⟩, ⟨p.x, -p.y, -p.z⟩,
   ⟨-p.x, p.y, p.z⟩, ⟨-p.x, p.y, -p.z⟩,
   ⟨-p.x, -p.y, p.z⟩, ⟨-p.x, -p.y, -p.z⟩]

/-- Type 1 candidates of getC60Vertices: the twelve explicit adds
(0, +-1, +-3 phi) and cyclic permutations, in source order. -/
def c60TypeOne : List V3 :=
  [⟨gi 0 0, gi 1 0, gi 0 3⟩, ⟨gi 0 0, gi 1 0, -gi 0 3⟩,
   ⟨gi 0 0, -gi 1 0, gi 0 3⟩, ⟨gi 0 0, -gi 1 0, -gi 0 3⟩,
   ⟨gi 1 0, gi 0 3, gi 0 0⟩, ⟨-gi 1 0, gi 0 3, gi 0 0⟩,
   ⟨gi 1 0, -gi 0 3, gi 0 0⟩, ⟨-gi 1 0, -gi 0 3, gi 0 0⟩,
   ⟨gi 0 3, gi 0 0, gi 1 0⟩, ⟨-gi 0 3, gi 0 0, gi 1 0⟩,
   ⟨gi 0 3, gi 0 0, -gi 1 0⟩, ⟨-gi 0 3, gi 0 0, -gi 1 0⟩]

/-- Type 2 base point p1 = (2, 1 + 2 phi, phi). -/
def c60p1 : V3 := ⟨gi 2 0, gi 1 2, gi 0 1⟩

/-- Type 2 base point p2 = (1 + 2 phi, phi, 2). -/
def c60p2 : V3 := ⟨gi 1 2, gi 0 1, gi 2 0⟩

/-- Type 2 base point p3 = (phi, 2, 1 + 2 phi). -/
def c60p3 : V3 := ⟨gi 0 1, gi 2 0, gi 1 2⟩

/-- Type 3 base point p4 = (1, 2 + phi, 2 phi). -/
def c60p4 : V3 := ⟨gi 1 0, gi 2 1, gi 0 2⟩

/-- Type 3 base point p5 = (2 + phi, 2 phi, 1). -/
def c60p5 : V3 := ⟨gi 2 1, gi 0 2, gi 1 0⟩

/-- Type 3 base point p6 = (2 phi, 1, 2 + phi). -/
def c60p6 : V3 := ⟨gi 0 2, gi 1 0, gi 2 1⟩

/-- The preciseCoords list built by getC60Vertices: 12 type-1 points, then
the eight sign combinations of p1, p2, p3, then of p4, p5, p6, in the
exact push order of the source. -/
def c60RawCandidates : List V3 :=
  c60TypeOne ++ signs8 c60p1 ++ signs8 c60p2 ++ signs8 c60p3
    ++ signs8 c60p4 ++ signs8 c60p5 ++ signs8 c60p6

/-- Real 3D vector. -/
abbrev RVec3 : Type := ℝ × ℝ × ℝ

/-- Normalization factor of getC60Vertices: Math.sqrt(10 + 9 * phi). -/
noncomputable def c60NormFactor : ℝ := Real.sqrt (10 + 9 * goldenPhi)

/-- Scaling step of getC60Vertices: each coordinate is divided by the
normalization factor and multiplied by the requested radius. -/
noncomputable def scaleC60 (radius : ℝ) (v : V3) : RVec3 :=
  (v.x.toReal / c60NormFactor * radius,
   v.y.toReal / c60NormFactor * radius,
   v.z.toReal / c60NormFactor * radius)

/-- The toFixed(5) key of one coordinate.  The ECMAScript toFixed(5)
string of x is determined by the integer n minimizing the distance of
n / 10^5 to |x| with ties taking the larger n (that is,
n = floor(|x| * 10^5 + 1/2)) together with the sign prefix, which is
printed for every negative input (so a negative value rounding to zero
prints "-0.00000", distinct from "0.00000"). -/
noncomputable def toFixedKey (x : ℝ) : ℤ × Bool :=
  (⌊|x| * 100000 + 1 / 2⌋, if x < 0 then true else false)

/-- The Map key of getC60Vertices for one scaled vertex:
v.map(c => c.toFixed(5)).join(','), i.e. the triple of per-coordinate
toFixed(5) keys (the join of the three component strings is injective in
the components). -/
noncomputable def c60Key (p : RVec3) : (ℤ × Bool) × (ℤ × Bool) × (ℤ × Bool) :=
  (toFixedKey p.1, toFixedKey p.2.1, toFixedKey p.2.2)

/-- The Map-based deduplication loop of getC60Vertices: walk the scaled
vertices in order, keep a vertex exactly when its key is not yet in the
Map, and record its key; the output preserves first-seen order (Map
insertion order). -/
noncomputable def dedupByKeyAux {κ : Type} [DecidableEq κ] (key : RVec3 → κ) :
    List κ → List RVec3 → List RVec3
  | _, [] => []
  | seen, v :: rest =>
    if key v ∈ seen then dedupByKeyAux key seen rest
    else v :: dedupByKeyAux key (key v :: seen) rest

/-- Keyed deduplication starting from an empty Map. -/
noncomputable def dedupByKey {κ : Type} [DecidableEq κ] (key : RVec3 → κ)
    (l : List RVec3) : List RVec3 :=
  dedupByKeyAux key [] l

/-- The finalVertices returned by getC60Vertices(radius): normalize and
scale the raw candidates, then deduplicate by the rounded toFixed(5)
string key of the scaled coordinates. -/
noncomputable def getC60Vertices (radius : ℝ) : List RVec3 :=
  dedupByKey c60Key (c60RawCandidates.map (scaleC60 radius))

/-- Icosahedron-variant raw vertices (buckyballVertices): the nested loops
over i, j in {-1, 1} push (0, i, j phi), (i, j phi, 0), (j phi, 0, i), in
source iteration order. -/
def icosaRawCandidates : List V3 :=
  [⟨gi 0 0, -gi 1 0, -gi 0 1⟩, ⟨-gi 1 0, -gi 0 1, gi 0 0⟩, ⟨-gi 0 1, gi 0 0, -gi 1 0⟩,
   ⟨gi 0 0, -gi 1 0, gi 0 1⟩, ⟨-gi 1 0, gi 0 1, gi 0 0⟩, ⟨gi 0 1, gi 0 0, -gi 1 0⟩,
   ⟨gi 0 0, gi 1 0, -gi 0 1⟩, ⟨gi 1 0, -gi 0 1, gi 0 0⟩, ⟨-gi 0 1, gi 0 0, gi 1 0⟩,
   ⟨gi 0 0, gi 1 0, gi 0 1⟩, ⟨gi 1 0, gi 0 1, gi 0 0⟩, ⟨gi 0 1, gi 0 0, gi 1 0⟩]

/-- Normalization factor of buckyballVertices: Math.sqrt(1 + phi * phi). -/
noncomputable def icosaNormFactor : ℝ := Real.sqrt (1 + goldenPhi * goldenPhi)

/-- Scaling step of buckyballVertices: coord * radius / sqrt(1 + phi^2). -/
noncomputable def scaleIcosa (radius : ℝ) (v : V3) : RVec3 :=
  (v.x.toReal * radius / icosaNormFactor,
   v.y.toReal * radius / icosaNormFactor,
   v.z.toReal * radius / icosaNormFactor)

/-- The icosahedron vertex list scaled to a given radius; the source
instantiates the radius at the module constant BUCKYBALL_RADIUS. -/
noncomputable def buckyballVerticesR (radius : ℝ) : List RVec3 :=
  icosaRawCandidates.map (scaleIcosa radius)

/-- Module constant BUCKYBALL_RADIUS of the icosahedron variant. -/
noncomputable def BUCKYBALL_RADIUS : ℝ := 2

/-- buckyballVertices(): the icosahedron variant generator, which bakes in
the module radius constant. -/
noncomputable def buckyballVertices : List RVec3 :=
  buckyballVerticesR BUCKYBALL_RADIUS

/-- Euclidean norm of a real 3-vector (THREE.Vector3.length). -/
noncomputable def norm3 (v : RVec3) : ℝ :=
  Real.sqrt (v.1 ^ 2 + v.2.1 ^ 2 + v.2.2 ^ 2)

/-- Maximum distance from the origin over a vertex list, 0 for the empty
list. -/
noncomputable def maxDistFromOrigin (l : List RVec3) : ℝ :=
  l.foldr (fun v m => max (norm3 v) m) 0

/- Arithmetic facts about the golden ratio and the toReal interpretation. -/

theorem sqrt5_sq : Real.sqrt 5 * Real.sqrt 5 = 5 :=
  Real.mul_self_sqrt (by norm_num)

theorem goldenPhi_sq : goldenPhi * goldenPhi = goldenPhi + 1 := by
  unfold goldenPhi
  linear_combination (1 / 4 : ℝ) * sqrt5_sq

theorem goldenPhi_pos : 0 < goldenPhi := by
  unfold goldenPhi
  have h : 0 ≤ Real.sqrt 5 := Real.sqrt_nonneg 5
  linarith

theorem GoldenInt.toReal_add (g h : GoldenInt) :
    (g + h).toReal = g.toReal + h.toReal := by
  show ((⟨g.a + h.a, g.b + h.b⟩ : GoldenInt)).toReal = _
  unfold GoldenInt.toReal
  push_cast
  ring

theorem GoldenInt.toReal_mul (g h : GoldenInt) :
    (g * h).toReal = g.toReal * h.toReal := by
  show ((⟨g.a * h.a + g.b * h.b, g.a * h.b + g.b * h.a + g.b * h.b⟩ :
    GoldenInt)).toReal = _
  unfold GoldenInt.toReal
  push_cast
  linear_combination (-(g.b : ℝ) * h.b) * goldenPhi_sq

theorem GoldenInt.toReal_neg (g : GoldenInt) : (-g).toReal = -g.toReal := by
  show ((⟨-g.a, -g.b⟩ : GoldenInt)).toReal = _
  unfold GoldenInt.toReal
  push_cast
  ring

theorem GoldenInt.toReal_sub (g h : GoldenInt) :
    (g - h).toReal = g.toReal - h.toReal := by
  show ((⟨g.a - h.a, g.b - h.b⟩ : GoldenInt)).toReal = _
  unfold GoldenInt.toReal
  push_cast
  ring

theorem irrational_goldenPhi : Irrational goldenPhi := by
  unfold goldenPhi
  exact gold_irrational

theorem GoldenInt.toReal_injective : Function.Injective GoldenInt.toReal := by
  intro g h hgh
  unfold GoldenInt.toReal at hgh
  by_cases hb : g.b = h.b
  · have : (g.a : ℝ) = h.a := by rw [hb] at hgh; linarith
    have ha : g.a = h.a := by exact_mod_cast this
    cases g; cases h
    simp_all
  · exfalso
    have hbR : (g.b : ℝ) - h.b ≠ 0 := by
      intro hc
      apply hb
      have : (g.b : ℝ) = h.b := by linarith
      exact_mod_cast this
    have : goldenPhi = ((h.a - g.a : ℤ) : ℝ) / ((g.b - h.b : ℤ) : ℝ) := by
      push_cast
      field_simp
      linarith
    apply irrational_goldenPhi.ne_rat ((h.a - g.a : ℚ) / (g.b - h.b : ℚ))
    rw [this]
    push_cast
    ring

theorem c60NormSqR_pos : (0 : ℝ) < 10 + 9 * goldenPhi := by
  have h := goldenPhi_pos
  linarith

theorem c60NormFactor_pos : 0 < c60NormFactor :=
  Real.sqrt_pos.mpr c60NormSqR_pos

theorem icosaNormSqR_pos : (0 : ℝ) < 1 + goldenPhi * goldenPhi := by
  have h := goldenPhi_pos
  nlinarith

theorem icosaNormFactor_pos : 0 < icosaNormFactor :=
  Real.sqrt_pos.mpr icosaNormSqR_pos

theorem gNormSq_toReal (v : V3) :
    (gNormSq v).toReal = v.x.toReal ^ 2 + v.y.toReal ^ 2 + v.z.toReal ^ 2 := by
  unfold gNormSq
  rw [GoldenInt.toReal_add, GoldenInt.toReal_add, GoldenInt.toReal_mul,
      GoldenInt.toReal_mul, GoldenInt.toReal_mul]
  ring

theorem norm3_mul_const (x y z c : ℝ) (hc : 0 ≤ c) :
    norm3 (x * c, y * c, z * c) = Real.sqrt (x ^ 2 + y ^ 2 + z ^ 2) * c := by
  unfold norm3
  rw [show (x * c) ^ 2 + (y * c) ^ 2 + (z * c) ^ 2
        = (x ^ 2 + y ^ 2 + z ^ 2) * c ^ 2 by ring,
      Real.sqrt_mul (by positivity), Real.sqrt_sq hc]

theorem norm3_scaleC60 {radius : ℝ} (hr : 0 < radius) {v : V3}
    (hv : gNormSq v = ⟨10, 9⟩) : norm3 (scaleC60 radius v) = radius := by
  have hF := c60NormFactor_pos
  have hS : v.x.toReal ^ 2 + v.y.toReal ^ 2 + v.z.toReal ^ 2
      = 10 + 9 * goldenPhi := by
    have h1 := gNormSq_toReal v
    rw [hv] at h1
    rw [← h1]
    unfold GoldenInt.toReal
    push_cast
    ring
  have hrw : scaleC60 radius v =
      (v.x.toReal * (radius / c60NormFactor),
       v.y.toReal * (radius / c60NormFactor),
       v.z.toReal * (radius / c60NormFactor)) := by
    unfold scaleC60
    simp only [Prod.mk.injEq]
    exact ⟨by ring, by ring, by ring⟩
  rw [hrw, norm3_mul_const _ _ _ _ (by positivity), hS]
  rw [show Real.sqrt (10 + 9 * goldenPhi) = c60NormFactor from rfl]
  field_simp

theorem norm3_scaleIcosa {radius : ℝ} (hr : 0 < radius) {v : V3}
    (hv : gNormSq v = ⟨2, 1⟩) : norm3 (scaleIcosa radius v) = radius := by
  have hF := icosaNormFactor_pos
  have hS : v.x.toReal ^ 2 + v.y.toReal ^ 2 + v.z.toReal ^ 2
      = 1 + goldenPhi * goldenPhi := by
    have h1 := gNormSq_toReal v
    rw [hv] at h1
    rw [← h1]
    unfold GoldenInt.toReal
    push_cast
    linear_combination (-1 : ℝ) * goldenPhi_sq
  have hrw : scaleIcosa radius v =
      (v.x.toReal * (radius / icosaNormFactor),
       v.y.toReal * (radius / icosaNormFactor),
       v.z.toReal * (radius / icosaNormFactor)) := by
    unfold scaleIcosa
    simp only [Prod.mk.injEq]
    exact ⟨by ring, by ring, by ring⟩
  rw [hrw, norm3_mul_const _ _ _ _ (by positivity), hS]
  rw [show Real.sqrt (1 + goldenPhi * goldenPhi) = icosaNormFactor from rfl]
  field_simp

theorem scaleC60_injective {radius : ℝ} (hr : radius ≠ 0) :
    Function.Injective (scaleC60 radius) := by
  intro u v h
  have hF : c60NormFactor ≠ 0 := c60NormFactor_pos.ne'
  unfold scaleC60 at h
  simp only [Prod.mk.injEq] at h
  obtain ⟨h1, h2, h3⟩ := h
  have e1 : u.x = v.x := GoldenInt.toReal_injective (by
    field_simp at h1
    exact h1.resolve_right hr)
  have e2 : u.y = v.y := GoldenInt.toReal_injective (by
    field_simp at h2
    exact h2.resolve_right hr)
  have e3 : u.z = v.z := GoldenInt.toReal_injective (by
    field_simp at h3
    exact h3.resolve_right hr)
  cases u
  cases v
  simp_all

theorem maxDist_of_const {r : ℝ} (hr : 0 ≤ r) :
    ∀ l : List RVec3, l ≠ [] → (∀ v ∈ l, norm3 v = r) →
      maxDistFromOrigin l = r := by
  intro l
  induction l with
  | nil => intro h; exact absurd rfl h
  | cons v t ih =>
    intro _ hall
    unfold maxDistFromOrigin
    cases t with
    | nil =>
      simp only [List.foldr]
      rw [hall v (by simp)]
      exact max_eq_left hr
    | cons w s =>
      have ht : maxDistFromOrigin (w :: s) = r :=
        ih (by simp) (fun u hu => hall u (List.mem_cons_of_mem v hu))
      unfold maxDistFromOrigin at ht
      simp only [List.foldr] at ht ⊢
      rw [ht, hall v (by simp)]
      exact max_self r

set_option maxRecDepth 8000

theorem c60Raw_length : c60RawCandidates.length = 60 := by decide

theorem c60Raw_nodup : c60RawCandidates.Nodup := by decide

theorem c60Raw_normSq : ∀ v ∈ c60RawCandidates, gNormSq v = ⟨10, 9⟩ := by
  decide

theorem c60Raw_coeffBounds :
    ∀ v ∈ c60RawCandidates,
      (|v.x.a| ≤ 2 ∧ |v.x.b| ≤ 3) ∧ (|v.y.a| ≤ 2 ∧ |v.y.b| ≤ 3) ∧
      (|v.z.a| ≤ 2 ∧ |v.z.b| ≤ 3) := by decide

theorem icosa_normSq : ∀ v ∈ icosaRawCandidates, gNormSq v = ⟨2, 1⟩ := by
  decide

/- Structural facts about the Map-based keyed deduplication. -/

theorem dedupByKeyAux_sublist {κ : Type} [DecidableEq κ] (key : RVec3 → κ) :
    ∀ (l : List RVec3) (seen : List κ),
      List.Sublist (dedupByKeyAux key seen l) l := by
  intro l
  induction l with
  | nil => intro seen; simp [dedupByKeyAux]
  | cons v rest ih =>
    intro seen
    rw [show dedupByKeyAux key seen (v :: rest)
        = if key v ∈ seen then dedupByKeyAux key seen rest
          else v :: dedupByKeyAux key (key v :: seen) rest from rfl]
    split_ifs with h
    · exact (ih seen).trans (List.sublist_cons_self v rest)
    · exact (ih (key v :: seen)).cons₂ v

theorem dedupByKeyAux_keys {κ : Type} [DecidableEq κ] (key : RVec3 → κ) :
    ∀ (l : List RVec3) (seen : List κ),
      ((dedupByKeyAux key seen l).map key).Nodup ∧
      ∀ k ∈ (dedupByKeyAux key seen l).map key, k ∉ seen := by
  intro l
  induction l with
  | nil => intro seen; exact ⟨by simp [dedupByKeyAux], by simp [dedupByKeyAux]⟩
  | cons v rest ih =>
    intro seen
    rw [show dedupByKeyAux key seen (v :: rest)
        = if key v ∈ seen then dedupByKeyAux key seen rest
          else v :: dedupByKeyAux key (key v :: seen) rest from rfl]
    split_ifs with h
    · exact ih seen
    · obtain ⟨ihN, ihS⟩ := ih (key v :: seen)
      constructor
      · rw [List.map_cons, List.nodup_cons]
        exact ⟨fun hc => (ihS _ hc) (List.mem_cons_self _ _), ihN⟩
      · intro k hk
        rw [List.map_cons, List.mem_cons] at hk
        rcases hk with rfl | hk
        · exact h
        · exact fun hc => (ihS _ hk) (List.mem_cons_of_mem _ hc)

theorem dedupByKey_keys_nodup {κ : Type} [DecidableEq κ] (key : RVec3 → κ)
    (l : List RVec3) : ((dedupByKey key l).map key).Nodup :=
  (dedupByKeyAux_keys key l []).1

theorem dedupByKeyAux_eq_self {κ : Type} [DecidableEq κ] (key : RVec3 → κ) :
    ∀ (l : List RVec3) (seen : List κ), (l.map key).Nodup →
      (∀ k ∈ l.map key, k ∉ seen) → dedupByKeyAux key seen l = l := by
  intro l
  induction l with
  | nil => intro seen _ _; rfl
  | cons v rest ih =>
    intro seen hnd hs
    rw [List.map_cons, List.nodup_cons] at hnd
    rw [show dedupByKeyAux key seen (v :: rest)
        = if key v ∈ seen then dedupByKeyAux key seen rest
          else v :: dedupByKeyAux key (key v :: seen) rest from rfl]
    rw [if_neg (hs (key v) (by simp))]
    congr 1
    apply ih (key v :: seen) hnd.2
    intro k hk hc
    rcases List.mem_cons.mp hc with rfl | hc2
    · exact hnd.1 hk
    · exact hs k (by rw [List.map_cons]; exact List.mem_cons_of_mem _ hk) hc2

theorem dedupByKey_eq_self {κ : Type} [DecidableEq κ] (key : RVec3 → κ)
    (l : List RVec3) (h : (l.map key).Nodup) : dedupByKey key l = l :=
  dedupByKeyAux_eq_self key l [] h (fun k _ => List.not_mem_nil k)

theorem dedupByKey_ne_nil {κ : Type} [DecidableEq κ] (key : RVec3 → κ)
    {l : List RVec3} (h : l ≠ []) : dedupByKey key l ≠ [] := by
  cases l with
  | nil => exact absurd rfl h
  | cons v rest =>
    unfold dedupByKey
    rw [show dedupByKeyAux key [] (v :: rest)
        = if key v ∈ ([] : List κ) then dedupByKeyAux key [] rest
          else v :: dedupByKeyAux key [key v] rest from rfl]
    rw [if_neg (List.not_mem_nil _)]
    exact List.cons_ne_nil _ _

/- Rational bounds on the golden ratio and the normalization factor. -/

theorem goldenPhi_gt : 1.6 < goldenPhi := by
  unfold goldenPhi
  have h : (2.2 : ℝ) < Real.sqrt 5 :=
    (Real.lt_sqrt (by norm_num)).mpr (by norm_num)
  linarith

theorem goldenPhi_lt : goldenPhi < 1.62 := by
  unfold goldenPhi
  have h : Real.sqrt 5 < 2.24 :=
    (Real.sqrt_lt' (by norm_num)).mpr (by norm_num)
  linarith

theorem two_lt_c60NormFactor : 2 < c60NormFactor := by
  unfold c60NormFactor
  rw [Real.lt_sqrt (by norm_num)]
  nlinarith [goldenPhi_pos]

theorem four_lt_c60NormFactor : 4 < c60NormFactor := by
  unfold c60NormFactor
  rw [Real.lt_sqrt (by norm_num)]
  nlinarith [goldenPhi_gt]

theorem c60NormFactor_lt_five : c60NormFactor < 5 := by
  unfold c60NormFactor
  rw [Real.sqrt_lt' (by norm_num)]
  nlinarith [goldenPhi_lt]

theorem twoPhi_lt_c60NormFactor : 2 * goldenPhi < c60NormFactor := by
  unfold c60NormFactor
  rw [Real.lt_sqrt (by nlinarith [goldenPhi_pos])]
  nlinarith [goldenPhi_sq, goldenPhi_pos]

theorem c60NormFactor_le_sixPhi : c60NormFactor ≤ 6 * goldenPhi := by
  unfold c60NormFactor
  rw [Real.sqrt_le_left (by nlinarith [goldenPhi_pos])]
  nlinarith [goldenPhi_sq, goldenPhi_pos]

theorem c60NormFactor_le_oneAddTwoPhiDouble :
    c60NormFactor ≤ 2 * (1 + 2 * goldenPhi) := by
  unfold c60NormFactor
  rw [Real.sqrt_le_left (by nlinarith [goldenPhi_pos])]
  nlinarith [goldenPhi_sq, goldenPhi_pos]

theorem oneAddTwoPhi_lt_c60NormFactorScaled :
    2 * (1 + 2 * goldenPhi) < 3 * c60NormFactor := by
  have h : (2 * (1 + 2 * goldenPhi)) / 3 < c60NormFactor := by
    unfold c60NormFactor
    rw [Real.lt_sqrt (by nlinarith [goldenPhi_pos])]
    nlinarith [goldenPhi_sq, goldenPhi_pos]
  linarith

/- Facts about the toFixed(5) key of one coordinate. -/

theorem toFixedKey_eq_close {x y : ℝ}
    (h : toFixedKey x = toFixedKey y) : |x - y| < 1 / 100000 := by
  unfold toFixedKey at h
  rw [Prod.mk.injEq] at h
  obtain ⟨hn, hs⟩ := h
  have hfx1 := Int.floor_le (|x| * 100000 + 1 / 2)
  have hfx2 := Int.lt_floor_add_one (|x| * 100000 + 1 / 2)
  have hfy1 := Int.floor_le (|y| * 100000 + 1 / 2)
  have hfy2 := Int.lt_floor_add_one (|y| * 100000 + 1 / 2)
  rw [hn] at hfx1 hfx2
  have hub : |x| - |y| < 1 / 100000 := by linarith
  have hlb : |y| - |x| < 1 / 100000 := by linarith
  by_cases hx : x < 0 <;> by_cases hy : y < 0
  · rw [abs_of_neg hx, abs_of_neg hy] at hub hlb
    rw [abs_lt]
    constructor <;> linarith
  · exfalso
    rw [if_pos hx, if_neg hy] at hs
    simp at hs
  · exfalso
    rw [if_neg hx, if_pos hy] at hs
    simp at hs
  · push_neg at hx hy
    rw [abs_of_nonneg hx, abs_of_nonneg hy] at hub hlb
    rw [abs_lt]
    constructor <;> linarith

theorem toFixedKey_tiny_zero {x : ℝ} (h0 : 0 ≤ x) (h : x * 100000 < 1 / 2) :
    toFixedKey x = (0, false) := by
  unfold toFixedKey
  rw [Prod.mk.injEq]
  constructor
  · rw [abs_of_nonneg h0, Int.floor_eq_zero_iff, Set.mem_Ico]
    constructor <;> linarith
  · rw [if_neg (not_lt.mpr h0)]

theorem toFixedKey_tiny_one {x : ℝ} (h0 : 0 ≤ x) (hlo : 1 / 2 ≤ x * 100000)
    (hhi : x * 100000 < 3 / 2) : toFixedKey x = (1, false) := by
  unfold toFixedKey
  rw [Prod.mk.injEq]
  constructor
  · rw [abs_of_nonneg h0]
    rw [Int.floor_eq_iff]
    push_cast
    constructor <;> linarith
  · rw [if_neg (not_lt.mpr h0)]

/-- A nonzero element a + b phi of Z[phi] with |a| <= 4 and |b| <= 6 has
absolute value at least 1/8: its field norm |a^2 + ab - b^2| is a nonzero
integer and its conjugate a + b(1 - phi) is at most 8 in absolute value. -/
theorem goldenInt_toReal_lower (a b : ℤ) (hab : ¬(a = 0 ∧ b = 0))
    (ha : |a| ≤ 4) (hb : |b| ≤ 6) :
    1 / 8 ≤ |(a : ℝ) + b * goldenPhi| := by
  have hdec : ∀ x ∈ Finset.Icc (-4 : ℤ) 4, ∀ y ∈ Finset.Icc (-6 : ℤ) 6,
      ¬(x = 0 ∧ y = 0) → x * x + x * y - y * y ≠ 0 := by decide
  have hnz : a * a + a * b - b * b ≠ 0 :=
    hdec a (Finset.mem_Icc.mpr (abs_le.mp ha))
      b (Finset.mem_Icc.mpr (abs_le.mp hb)) hab
  have hone : (1 : ℝ) ≤ |((a * a + a * b - b * b : ℤ) : ℝ)| := by
    rw [← Int.cast_abs]
    exact_mod_cast Int.one_le_abs hnz
  have hprod : ((a : ℝ) + b * goldenPhi) * ((a : ℝ) + b - b * goldenPhi)
      = ((a * a + a * b - b * b : ℤ) : ℝ) := by
    push_cast
    linear_combination (-(b : ℝ) * b) * goldenPhi_sq
  have hconj : |(a : ℝ) + b - b * goldenPhi| ≤ 8 := by
    have h1 : |(a : ℝ)| ≤ 4 := by exact_mod_cast abs_le.mp ha |> abs_le.mpr
    have h2 : |(b : ℝ)| ≤ 6 := by exact_mod_cast abs_le.mp hb |> abs_le.mpr
    have h3 : |1 - goldenPhi| ≤ 62 / 100 := by
      rw [abs_of_nonpos (by linarith [goldenPhi_gt])]
      linarith [goldenPhi_lt]
    calc |(a : ℝ) + b - b * goldenPhi|
        = |(a : ℝ) + b * (1 - goldenPhi)| := by
          congr 1
          ring
      _ ≤ |(a : ℝ)| + |(b : ℝ) * (1 - goldenPhi)| := abs_add _ _
      _ = |(a : ℝ)| + |(b : ℝ)| * |1 - goldenPhi| := by rw [abs_mul]
      _ ≤ 4 + 6 * (62 / 100) := by
          have hb0 := abs_nonneg ((b : ℝ))
          have hg0 := abs_nonneg ((1 : ℝ) - goldenPhi)
          nlinarith
      _ ≤ 8 := by norm_num
  have habs : |(a : ℝ) + b * goldenPhi| * |(a : ℝ) + b - b * goldenPhi|
      = |((a * a + a * b - b * b : ℤ) : ℝ)| := by
    rw [← abs_mul, hprod]
  nlinarith [abs_nonneg ((a : ℝ) + b * goldenPhi),
    abs_nonneg ((a : ℝ) + b - b * goldenPhi)]

/-- For radius at least 1/1000, two coordinates from the candidate pool
receiving the same toFixed(5) key are equal: their scaled gap is below
1e-5, hence their raw gap is below 1/8, which by the norm bound forces the
difference to be zero. -/
theorem coord_eq_of_key_eq {radius : ℝ} (hr : 1 / 1000 ≤ radius)
    {g h : GoldenInt} (hga : |g.a| ≤ 2) (hgb : |g.b| ≤ 3)
    (hha : |h.a| ≤ 2) (hhb : |h.b| ≤ 3)
    (hk : toFixedKey (g.toReal / c60NormFactor * radius)
        = toFixedKey (h.toReal / c60NormFactor * radius)) : g = h := by
  by_contra hne
  have hrpos : 0 < radius := by linarith
  have hF := c60NormFactor_pos
  have hF5 := c60NormFactor_lt_five
  have hclose := toFixedKey_eq_close hk
  rw [show g.toReal / c60NormFactor * radius - h.toReal / c60NormFactor * radius
      = (g - h).toReal * (radius / c60NormFactor) by
        rw [GoldenInt.toReal_sub]; ring,
    abs_mul, abs_of_pos (div_pos hrpos hF)] at hclose
  have hlow : 1 / 8 ≤ |(g - h).toReal| := by
    rw [show (g - h).toReal
        = ((g.a - h.a : ℤ) : ℝ) + ((g.b - h.b : ℤ) : ℝ) * goldenPhi from rfl]
    apply goldenInt_toReal_lower
    · intro hc
      apply hne
      obtain ⟨hc1, hc2⟩ := hc
      have h1 : g.a = h.a := by omega
      have h2 : g.b = h.b := by omega
      rw [show g = (⟨g.a, g.b⟩ : GoldenInt) from rfl,
        show h = (⟨h.a, h.b⟩ : GoldenInt) from rfl, h1, h2]
    · rw [abs_le] at hga hha ⊢
      omega
    · rw [abs_le] at hgb hhb ⊢
      omega
  have hratio : 1 / 5000 ≤ radius / c60NormFactor := by
    rw [le_div_iff hF]
    nlinarith
  have hcontra := mul_le_mul hlow hratio (by norm_num) (abs_nonneg _)
  nlinarith

/-- On the candidate pool, the toFixed(5) key of the scaled vertex is
injective for every radius at least 1/1000. -/
theorem c60Key_injOn {radius : ℝ} (hr : 1 / 1000 ≤ radius) :
    ∀ u ∈ c60RawCandidates, ∀ v ∈ c60RawCandidates,
      c60Key (scaleC60 radius u) = c60Key (scaleC60 radius v) → u = v := by
  intro u hu v hv hkey
  obtain ⟨hu1, hu2, hu3⟩ := c60Raw_coeffBounds u hu
  obtain ⟨hv1, hv2, hv3⟩ := c60Raw_coeffBounds v hv
  have h1 : toFixedKey (u.x.toReal / c60NormFactor * radius)
      = toFixedKey (v.x.toReal / c60NormFactor * radius) :=
    congrArg Prod.fst hkey
  have h2 : toFixedKey (u.y.toReal / c60NormFactor * radius)
      = toFixedKey (v.y.toReal / c60NormFactor * radius) :=
    congrArg (fun p => p.2.1) hkey
  have h3 : toFixedKey (u.z.toReal / c60NormFactor * radius)
      = toFixedKey (v.z.toReal / c60NormFactor * radius) :=
    congrArg (fun p => p.2.2) hkey
  have ex : u.x = v.x := coord_eq_of_key_eq hr hu1.1 hu1.2 hv1.1 hv1.2 h1
  have ey : u.y = v.y := coord_eq_of_key_eq hr hu2.1 hu2.2 hv2.1 hv2.2 h2
  have ez : u.z = v.z := coord_eq_of_key_eq hr hu3.1 hu3.2 hv3.1 hv3.2 h3
  rw [show u = (⟨u.x, u.y, u.z⟩ : V3) from rfl,
    show v = (⟨v.x, v.y, v.z⟩ : V3) from rfl, ex, ey, ez]

/-- The family-A vertex (0, 1, 3 phi) at radius 1/100000 gets the key of
"0.00000,0.00000,0.00001". -/
theorem c60Key_scaled_A :
    c60Key (scaleC60 (1 / 100000) ⟨gi 0 0, gi 1 0, gi 0 3⟩)
      = ((0, false), (0, false), (1, false)) := by
  have hF := c60NormFactor_pos
  have h2F := two_lt_c60NormFactor
  have hphi := goldenPhi_pos
  have h0 : (gi 0 0).toReal = 0 := by
    unfold gi GoldenInt.toReal
    push_cast
    ring
  have h1 : (gi 1 0).toReal = 1 := by
    unfold gi GoldenInt.toReal
    push_cast
    ring
  have h3 : (gi 0 3).toReal = 3 * goldenPhi := by
    unfold gi GoldenInt.toReal
    push_cast
    ring
  have hx : toFixedKey ((gi 0 0).toReal / c60NormFactor * (1 / 100000))
      = (0, false) := by
    rw [h0, show (0 : ℝ) / c60NormFactor * (1 / 100000) = 0 by ring]
    exact toFixedKey_tiny_zero le_rfl (by norm_num)
  have hy : toFixedKey ((gi 1 0).toReal / c60NormFactor * (1 / 100000))
      = (0, false) := by
    rw [h1]
    apply toFixedKey_tiny_zero
      (mul_nonneg (div_nonneg zero_le_one hF.le) (by norm_num))
    rw [show (1 : ℝ) / c60NormFactor * (1 / 100000) * 100000
        = 1 / c60NormFactor by ring]
    rw [div_lt_div_iff hF (by norm_num)]
    linarith
  have hz : toFixedKey ((gi 0 3).toReal / c60NormFactor * (1 / 100000))
      = (1, false) := by
    rw [h3]
    apply toFixedKey_tiny_one
      (mul_nonneg (div_nonneg (by linarith) hF.le) (by norm_num))
    · rw [show 3 * goldenPhi / c60NormFactor * (1 / 100000) * 100000
          = 3 * goldenPhi / c60NormFactor by ring]
      rw [le_div_iff hF]
      linarith [c60NormFactor_le_sixPhi]
    · rw [show 3 * goldenPhi / c60NormFactor * (1 / 100000) * 100000
          = 3 * goldenPhi / c60NormFactor by ring]
      rw [div_lt_iff hF]
      linarith [twoPhi_lt_c60NormFactor]
  show (toFixedKey ((gi 0 0).toReal / c60NormFactor * (1 / 100000)),
      toFixedKey ((gi 1 0).toReal / c60NormFactor * (1 / 100000)),
      toFixedKey ((gi 0 3).toReal / c60NormFactor * (1 / 100000)))
    = ((0, false), (0, false), (1, false))
  rw [hx, hy, hz]

/-- The family-C vertex (phi, 2, 1 + 2 phi) at radius 1/100000 gets the
same key "0.00000,0.00000,0.00001". -/
theorem c60Key_scaled_C :
    c60Key (scaleC60 (1 / 100000) ⟨gi 0 1, gi 2 0, gi 1 2⟩)
      = ((0, false), (0, false), (1, false)) := by
  have hF := c60NormFactor_pos
  have h4F := four_lt_c60NormFactor
  have hphi := goldenPhi_pos
  have h0 : (gi 0 1).toReal = goldenPhi := by
    unfold gi GoldenInt.toReal
    push_cast
    ring
  have h1 : (gi 2 0).toReal = 2 := by
    unfold gi GoldenInt.toReal
    push_cast
    ring
  have h3 : (gi 1 2).toReal = 1 + 2 * goldenPhi := by
    unfold gi GoldenInt.toReal
    push_cast
    ring
  have hx : toFixedKey ((gi 0 1).toReal / c60NormFactor * (1 / 100000))
      = (0, false) := by
    rw [h0]
    apply toFixedKey_tiny_zero
      (mul_nonneg (div_nonneg hphi.le hF.le) (by norm_num))
    rw [show goldenPhi / c60NormFactor * (1 / 100000) * 100000
        = goldenPhi / c60NormFactor by ring]
    rw [div_lt_div_iff hF (by norm_num)]
    linarith [twoPhi_lt_c60NormFactor]
  have hy : toFixedKey ((gi 2 0).toReal / c60NormFactor * (1 / 100000))
      = (0, false) := by
    rw [h1]
    apply toFixedKey_tiny_zero
      (mul_nonneg (div_nonneg (by norm_num) hF.le) (by norm_num))
    rw [show (2 : ℝ) / c60NormFactor * (1 / 100000) * 100000
        = 2 / c60NormFactor by ring]
    rw [div_lt_div_iff hF (by norm_num)]
    linarith
  have hz : toFixedKey ((gi 1 2).toReal / c60NormFactor * (1 / 100000))
      = (1, false) := by
    rw [h3]
    apply toFixedKey_tiny_one
      (mul_nonneg (div_nonneg (by linarith) hF.le) (by norm_num))
    · rw [show (1 + 2 * goldenPhi) / c60NormFactor * (1 / 100000) * 100000
          = (1 + 2 * goldenPhi) / c60NormFactor by ring]
      rw [le_div_iff hF]
      linarith [c60NormFactor_le_oneAddTwoPhiDouble]
    · rw [show (1 + 2 * goldenPhi) / c60NormFactor * (1 / 100000) * 100000
          = (1 + 2 * goldenPhi) / c60NormFactor by ring]
      rw [div_lt_iff hF]
      linarith [oneAddTwoPhi_lt_c60NormFactorScaled]
  show (toFixedKey ((gi 0 1).toReal / c60NormFactor * (1 / 100000)),
      toFixedKey ((gi 2 0).toReal / c60NormFactor * (1 / 100000)),
      toFixedKey ((gi 1 2).toReal / c60NormFactor * (1 / 100000)))
    = ((0, false), (0, false), (1, false))
  rw [hx, hy, hz]

/-- C1 counterexample: at the concrete radius 1/100000 the distinct
generated vertices (0, 1, 3 phi) and (phi, 2, 1 + 2 phi) scale to points
sharing the toFixed(5) key of "0.00000,0.00000,0.00001", so the Map
collapses them and getC60Vertices returns fewer than 60 vertices. -/
theorem C1_counterexample_small_radius :
    (getC60Vertices (1 / 100000)).length ≠ 60 := by
  intro hlen
  have hsub : List.Sublist (getC60Vertices (1 / 100000))
      (c60RawCandidates.map (scaleC60 (1 / 100000))) :=
    dedupByKeyAux_sublist c60Key (c60RawCandidates.map (scaleC60 (1 / 100000))) []
  have hlen2 : (c60RawCandidates.map (scaleC60 (1 / 100000))).length = 60 := by
    rw [List.length_map]
    exact c60Raw_length
  have heq : getC60Vertices (1 / 100000)
      = c60RawCandidates.map (scaleC60 (1 / 100000)) :=
    hsub.eq_of_length (by rw [hlen, hlen2])
  have hkeys : ((getC60Vertices (1 / 100000)).map c60Key).Nodup :=
    dedupByKey_keys_nodup c60Key _
  rw [heq] at hkeys
  have h1 : scaleC60 (1 / 100000) ⟨gi 0 0, gi 1 0, gi 0 3⟩
      ∈ c60RawCandidates.map (scaleC60 (1 / 100000)) :=
    List.mem_map_of_mem _ (by decide)
  have h2 : scaleC60 (1 / 100000) ⟨gi 0 1, gi 2 0, gi 1 2⟩
      ∈ c60RawCandidates.map (scaleC60 (1 / 100000)) :=
    List.mem_map_of_mem _ (by decide)
  have hkeq : c60Key (scaleC60 (1 / 100000) ⟨gi 0 0, gi 1 0, gi 0 3⟩)
      = c60Key (scaleC60 (1 / 100000) ⟨gi 0 1, gi 2 0, gi 1 2⟩) := by
    rw [c60Key_scaled_A, c60Key_scaled_C]
  have hveq : (⟨gi 0 0, gi 1 0, gi 0 3⟩ : V3) = ⟨gi 0 1, gi 2 0, gi 1 2⟩ :=
    scaleC60_injective (by norm_num)
      (List.inj_on_of_nodup_map hkeys h1 h2 hkeq)
  exact absurd hveq (by decide)

/-- C1 (amended): for every radius at least 1/1000 — in particular the
radii 4, 8 and 10.5 the repository renders at — the C60 generator
(golden-ratio coordinate families with all sign combinations and cyclic
permutations, followed by rounded-key deduplication) returns exactly 60
vertices, pairwise distinct as points of real 3-space.  For radii below
about 1.3e-4 the 5-decimal rounding of the key merges distinct vertices
and fewer than 60 survive (see the counterexample). -/
theorem C1_c60_sixty_unique_vertices_amended (radius : ℝ)
    (hr : 1 / 1000 ≤ radius) :
    (getC60Vertices radius).length = 60 ∧ (getC60Vertices radius).Nodup := by
  have hrpos : 0 < radius := by linarith
  have hscaled : (c60RawCandidates.map (scaleC60 radius)).Nodup :=
    c60Raw_nodup.map (scaleC60_injective hrpos.ne')
  have hkeys : ((c60RawCandidates.map (scaleC60 radius)).map c60Key).Nodup := by
    apply List.Nodup.map_on ?_ hscaled
    intro x hx y hy hxy
    obtain ⟨u, hu, rfl⟩ := List.mem_map.mp hx
    obtain ⟨v, hv, rfl⟩ := List.mem_map.mp hy
    rw [c60Key_injOn hr u hu v hv hxy]
  have heq : getC60Vertices radius = c60RawCandidates.map (scaleC60 radius) :=
    dedupByKey_eq_self c60Key _ hkeys
  rw [heq]
  exact ⟨by rw [List.length_map]; exact c60Raw_length, hscaled⟩

/-- Witness for the amended C1 at radius 4, the BUCKYBALL_RADIUS of the
first C60 variant. -/
theorem C1_c60_sixty_unique_vertices_amended_witness :
    (getC60Vertices 4).length = 60 ∧ (getC60Vertices 4).Nodup :=
  C1_c60_sixty_unique_vertices_amended 4 (by norm_num)

/-- C2: for both generated shapes and every radius > 0, the maximum
Euclidean distance from the origin to any generated vertex equals the
requested radius within tolerance 1e-3 (here proved from exact equality in
the ideal-arithmetic model): the C60 shape divides every raw coordinate by
sqrt(10 + 9 phi) before scaling by the radius, the icosahedron variant by
sqrt(1 + phi^2).  Every vertex surviving deduplication lies at distance
exactly radius, so the bound holds whatever subset the rounded keys keep. -/
theorem C2_circumradius_eq_radius (radius : ℝ) (hr : 0 < radius) :
    |maxDistFromOrigin (getC60Vertices radius) - radius| ≤ 1 / 1000 ∧
    |maxDistFromOrigin (buckyballVerticesR radius) - radius| ≤ 1 / 1000 := by
  have hc60 : maxDistFromOrigin (getC60Vertices radius) = radius := by
    apply maxDist_of_const hr.le
    · show dedupByKey c60Key (c60RawCandidates.map (scaleC60 radius)) ≠ []
      apply dedupByKey_ne_nil
      intro hmap
      rw [List.map_eq_nil_iff] at hmap
      have h60 := c60Raw_length
      rw [hmap] at h60
      simp at h60
    · intro v hv
      have hv2 : v ∈ c60RawCandidates.map (scaleC60 radius) :=
        (dedupByKeyAux_sublist c60Key (c60RawCandidates.map (scaleC60 radius))
          []).subset hv
      obtain ⟨k, hk, rfl⟩ := List.mem_map.mp hv2
      exact norm3_scaleC60 hr (c60Raw_normSq k hk)
  have hico : maxDistFromOrigin (buckyballVerticesR radius) = radius := by
    apply maxDist_of_const hr.le
    · unfold buckyballVerticesR icosaRawCandidates
      simp
    · intro v hv
      unfold buckyballVerticesR at hv
      obtain ⟨k, hk, rfl⟩ := List.mem_map.mp hv
      exact norm3_scaleIcosa hr (icosa_normSq k hk)
  rw [hc60, hico]
  norm_num

/-- Witness for C2 at radius 1. -/
theorem C2_circumradius_eq_radius_witness :
    |maxDistFromOrigin (getC60Vertices 1) - 1| ≤ 1 / 1000 ∧
    |maxDistFromOrigin (buckyballVerticesR 1) - 1| ≤ 1 / 1000 :=
  C2_circumradius_eq_radius 1 (by norm_num)

/- Visibility model (SkillNode opacity computations). -/

/-- Componentwise difference of 3-vectors (THREE.Vector3.sub). -/
noncomputable def sub3 (u v : RVec3) : RVec3 :=
  (u.1 - v.1, u.2.1 - v.2.1, u.2.2 - v.2.2)

/-- Dot product of 3-vectors (THREE.Vector3.dot). -/
noncomputable def dot3 (u v : RVec3) : ℝ :=
  u.1 * v.1 + u.2.1 * v.2.1 + u.2.2 * v.2.2

/-- THREE.Vector3.normalize: divideScalar(length || 1), so a zero-length
vector is divided by 1 and left unchanged. -/
noncomputable def normalize3 (v : RVec3) : RVec3 :=
  if norm3 v = 0 then v
  else (v.1 / norm3 v, v.2.1 / norm3 v, v.2.2 / norm3 v)

/-- Sprite-variant constant maxOpacity = 0.5. -/
noncomputable def maxOpacitySprite : ℝ := 0.5

/-- Sprite-variant constant sideViewOpacity = 0.15. -/
noncomputable def sideViewOpacity : ℝ := 0.15

/-- Sprite-variant constant visibilityDistanceThreshold = 40. -/
noncomputable def visibilityDistanceThreshold : ℝ := 40

/-- Sprite-variant constant fullOpacityDistanceStart = 15. -/
noncomputable def fullOpacityDistanceStart : ℝ := 15

/-- Sprite-variant constant fullOpacityDistanceEnd = start + 25. -/
noncomputable def fullOpacityDistanceEnd : ℝ := fullOpacityDistanceStart + 25

/-- Billboard-sprite variant: distanceToCamera. -/
noncomputable def spriteDistance (worldPos camPos : RVec3) : ℝ :=
  norm3 (sub3 worldPos camPos)

/-- Billboard-sprite variant: dot product of directionToCamera (the
normalised vector from camera to sprite) with the camera forward vector. -/
noncomputable def spriteDot (worldPos camPos camForward : RVec3) : ℝ :=
  dot3 (normalize3 (sub3 worldPos camPos)) camForward

/-- Opacity computed each frame by the billboard-sprite SkillNode
(AILOGO variant): hidden behind the camera or beyond the distance
threshold; distance-faded in front; fixed side-view value otherwise. -/
noncomputable def spriteLabelOpacity (worldPos camPos camForward : RVec3) : ℝ :=
  if spriteDot worldPos camPos camForward < -0.1 ∨
      spriteDistance worldPos camPos > visibilityDistanceThreshold then 0
  else if spriteDot worldPos camPos camForward > 0.1 then
    maxOpacitySprite * max 0 (min 1
      (1 - (spriteDistance worldPos camPos - fullOpacityDistanceStart) /
        (fullOpacityDistanceEnd - fullOpacityDistanceStart)))
  else sideViewOpacity

/-- HTML-overlay variant: distance from camera to the label position. -/
noncomputable def htmlDistance (worldPos camPos : RVec3) : ℝ :=
  norm3 (sub3 worldPos camPos)

/-- HTML-overlay variant: dot product of the normalised world position
with the normalised camera position. -/
noncomputable def htmlDot (worldPos camPos : RVec3) : ℝ :=
  dot3 (normalize3 worldPos) (normalize3 camPos)

/-- Opacity computed by the HTML-overlay SkillNode (C60 BuckyBall
variant): 0 behind or far away, min((35 - d) / 10, 0.8) when near,
0.4 on the edge band. -/
noncomputable def htmlLabelOpacity (worldPos camPos : RVec3) : ℝ :=
  if htmlDot worldPos camPos < -0.3 ∨ htmlDistance worldPos camPos > 35 then 0
  else if htmlDistance worldPos camPos < 25 then
    min ((35 - htmlDistance worldPos camPos) / 10) 0.8
  else 0.4

/-- C3: in both visibility variants, for all inputs (label world position,
camera position, camera forward direction), the produced opacity lies in
the closed interval [0, 1]. -/
theorem C3_opacity_in_unit_interval (worldPos camPos camForward : RVec3) :
    (0 ≤ spriteLabelOpacity worldPos camPos camForward ∧
      spriteLabelOpacity worldPos camPos camForward ≤ 1) ∧
    (0 ≤ htmlLabelOpacity worldPos camPos ∧
      htmlLabelOpacity worldPos camPos ≤ 1) := by
  constructor
  · unfold spriteLabelOpacity
    split_ifs with h1 h2
    · norm_num
    · constructor
      · apply mul_nonneg
        · unfold maxOpacitySprite
          norm_num
        · exact le_max_left 0 _
      · have hb : max 0 (min 1
            (1 - (spriteDistance worldPos camPos - fullOpacityDistanceStart) /
              (fullOpacityDistanceEnd - fullOpacityDistanceStart))) ≤ 1 :=
          max_le (by norm_num) (min_le_left 1 _)
        calc maxOpacitySprite * max 0 (min 1
              (1 - (spriteDistance worldPos camPos - fullOpacityDistanceStart) /
                (fullOpacityDistanceEnd - fullOpacityDistanceStart)))
            ≤ maxOpacitySprite * 1 := by
              apply mul_le_mul_of_nonneg_left hb
              unfold maxOpacitySprite
              norm_num
          _ ≤ 1 := by
              unfold maxOpacitySprite
              norm_num
    · unfold sideViewOpacity
      norm_num
  · unfold htmlLabelOpacity
    split_ifs with h1 h2
    · norm_num
    · push_neg at h1
      constructor
      · apply le_min
        · have hd := h1.2
          linarith
        · norm_num
      · calc min ((35 - htmlDistance worldPos camPos) / 10) 0.8 ≤ 0.8 :=
              min_le_right _ _
          _ ≤ 1 := by norm_num
    · norm_num

/-- C9: in the billboard-sprite variant, a label directly behind the camera
relative to its forward vector (dot product -1) gets opacity 0, and a label
in front (dot product 1) at or below the full-opacity start distance gets
opacity equal to the configured maxOpacity. -/
theorem C9_sprite_cutoff_and_max (worldPos camPos camForward : RVec3) :
    (spriteDot worldPos camPos camForward = -1 →
      spriteLabelOpacity worldPos camPos camForward = 0) ∧
    (spriteDot worldPos camPos camForward = 1 →
      spriteDistance worldPos camPos ≤ fullOpacityDistanceStart →
      spriteLabelOpacity worldPos camPos camForward = maxOpacitySprite) := by
  constructor
  · intro hdot
    unfold spriteLabelOpacity
    rw [if_pos]
    left
    rw [hdot]
    norm_num
  · intro hdot hdist
    have hd0 : 0 ≤ spriteDistance worldPos camPos := Real.sqrt_nonneg _
    unfold spriteLabelOpacity
    rw [if_neg, if_pos]
    · have hfac : min 1
          (1 - (spriteDistance worldPos camPos - fullOpacityDistanceStart) /
            (fullOpacityDistanceEnd - fullOpacityDistanceStart)) = 1 := by
        apply min_eq_left
        unfold fullOpacityDistanceStart at hdist
        unfold fullOpacityDistanceEnd fullOpacityDistanceStart
        have hnum : spriteDistance worldPos camPos - 15 ≤ 0 := by linarith
        have : (spriteDistance worldPos camPos - 15) / 25 ≤ 0 := by
          apply div_nonpos_of_nonpos_of_nonneg hnum
          norm_num
        linarith
      rw [hfac]
      simp [maxOpacitySprite]
    · rw [hdot]
      norm_num
    · push_neg
      constructor
      · rw [hdot]
        norm_num
      · unfold visibilityDistanceThreshold
        unfold fullOpacityDistanceStart at hdist
        linarith

/-- Witness for C9: camera at the origin looking along -z; the label at
(0, 0, 1) sits directly behind the camera and is invisible, the label at
(0, 0, -1) sits in front within the near band and gets maxOpacity. -/
theorem C9_sprite_cutoff_and_max_witness :
    spriteLabelOpacity (0, 0, 1) (0, 0, 0) (0, 0, -1) = 0 ∧
    spriteLabelOpacity (0, 0, -1) (0, 0, 0) (0, 0, -1) = maxOpacitySprite := by
  have hnorm1 : norm3 ((0 : ℝ), (0 : ℝ), (1 : ℝ)) = 1 := by
    unfold norm3
    norm_num
  have hnorm2 : norm3 ((0 : ℝ), (0 : ℝ), (-1 : ℝ)) = 1 := by
    unfold norm3
    norm_num
  constructor
  · apply (C9_sprite_cutoff_and_max (0, 0, 1) (0, 0, 0) (0, 0, -1)).1
    unfold spriteDot sub3
    norm_num
    unfold normalize3
    rw [hnorm1]
    norm_num [dot3]
  · apply (C9_sprite_cutoff_and_max (0, 0, -1) (0, 0, 0) (0, 0, -1)).2
    · unfold spriteDot sub3
      norm_num
      unfold normalize3
      rw [hnorm2]
      norm_num [dot3]
    · unfold spriteDistance sub3
      norm_num
      rw [hnorm2]
      unfold fullOpacityDistanceStart
      norm_num

/- Rotation driver. -/

/-- Three-axis rotation or angular-velocity vector. -/
structure Rot3 where
  x : ℝ
  y : ℝ
  z : ℝ

/-- State carried across frames by the scene: the accumulated rotation,
the current angular velocity, and the frame counter. -/
structure RotState where
  rot : Rot3
  vel : Rot3
  frame : ℕ

/-- One useFrame tick of the rotation driver: the rotation advances by the
current velocity on each of the three axes; every 60th frame the velocity
is perturbed by the random delta drawn this frame (applied to the next
frame's velocity, as the deferred setState does); the frame counter
advances by one. -/
def rotFrameStep (delta : Rot3) (s : RotState) : RotState :=
  { rot := ⟨s.rot.x + s.vel.x, s.rot.y + s.vel.y, s.rot.z + s.vel.z⟩
    vel := if s.frame % 60 = 0 then
        ⟨s.vel.x + delta.x, s.vel.y + delta.y, s.vel.z + delta.z⟩
      else s.vel
    frame := s.frame + 1 }

/-- Runs T frames of the rotation driver, frame t drawing the perturbation
deltas t. -/
def runRotFrames (deltas : ℕ → Rot3) (s : RotState) : ℕ → RotState
  | 0 => s
  | t + 1 => rotFrameStep (deltas t) (runRotFrames deltas s t)

/-- C5: each frame adds exactly the current angular velocity to each of the
three rotation axes, so after T frames the accumulated rotation on every
axis is the initial rotation plus the sum of the per-frame velocities —
no frame is skipped and no damping or clamping is applied.  (With no
velocity perturbation all summands equal the initial velocity.) -/
theorem C5_rotation_is_sum_of_velocities (deltas : ℕ → Rot3) (s : RotState)
    (T : ℕ) :
    (runRotFrames deltas s T).rot.x =
        s.rot.x + ∑ t ∈ Finset.range T, (runRotFrames deltas s t).vel.x ∧
    (runRotFrames deltas s T).rot.y =
        s.rot.y + ∑ t ∈ Finset.range T, (runRotFrames deltas s t).vel.y ∧
    (runRotFrames deltas s T).rot.z =
        s.rot.z + ∑ t ∈ Finset.range T, (runRotFrames deltas s t).vel.z := by
  induction T with
  | zero => simp [runRotFrames]
  | succ T ih =>
    obtain ⟨hx, hy, hz⟩ := ih
    refine ⟨?_, ?_, ?_⟩
    · rw [Finset.sum_range_succ, show runRotFrames deltas s (T + 1)
        = rotFrameStep (deltas T) (runRotFrames deltas s T) from rfl]
      unfold rotFrameStep
      simp only []
      rw [hx]
      ring
    · rw [Finset.sum_range_succ, show runRotFrames deltas s (T + 1)
        = rotFrameStep (deltas T) (runRotFrames deltas s T) from rfl]
      unfold rotFrameStep
      simp only []
      rw [hy]
      ring
    · rw [Finset.sum_range_succ, show runRotFrames deltas s (T + 1)
        = rotFrameStep (deltas T) (runRotFrames deltas s T) from rfl]
      unfold rotFrameStep
      simp only []
      rw [hz]
      ring

/- Label assignment. -/

/-- JavaScript remainder as used on label counts: i % m is NaN when m = 0
(modeled as none), otherwise the usual natural remainder. -/
def jsMod (i m : ℕ) : Option ℕ := if m = 0 then none else some (i % m)

/-- The pre-shuffle initialSkills array of the C60 scene: entry i is
i % skills.length. -/
def initSkillsArray (n m : ℕ) : Fin n → Option ℕ := fun i => jsMod i.val m

/-- Fisher-Yates shuffle loop: counter k performs the iterations for
i = k down to 1; each iteration draws j = js i % (i + 1) (the value of
Math.floor(Math.random() * (i + 1))) and swaps entries i and j, modeled
as precomposition with the transposition. -/
def fyLoop (n : ℕ) (js : ℕ → ℕ) (a : Fin n → Option ℕ) : ℕ → Fin n → Option ℕ
  | 0 => a
  | k + 1 =>
    if h : k + 1 < n then
      fyLoop n js (a ∘ Equiv.swap ⟨k + 1, h⟩
        ⟨js (k + 1) % (k + 2), by
          have hj : js (k + 1) % (k + 2) < k + 2 := Nat.mod_lt _ (Nat.succ_pos _)
          omega⟩) k
    else fyLoop n js a k

/-- The shuffled initial label assignment of the C60 scene: the modular
fill followed by the Fisher-Yates loop from index n - 1 down to 1. -/
def buckyInitSkills (n m : ℕ) (js : ℕ → ℕ) : Fin n → Option ℕ :=
  fyLoop n js (initSkillsArray n m) (n - 1)

/-- The C60 initialization effect: runs only while nodeSkills is empty and
then stores the shuffled array. -/
def buckyInitEffect (prev : List (Option ℕ)) (n m : ℕ) (js : ℕ → ℕ) :
    List (Option ℕ) :=
  if prev.length = 0 then List.ofFn (buckyInitSkills n m js) else prev

/-- The AILOGO initialization effect: guarded on both a nonempty vertex
set and a nonempty skill catalog; every node draws an independent
Math.floor(Math.random() * skills.length), modeled as draws i % m. -/
def ailogoInitEffect (prev : List ℕ) (nVerts m : ℕ) (draws : ℕ → ℕ) :
    List ℕ :=
  if 0 < nVerts ∧ 0 < m then (List.range nVerts).map (fun i => draws i % m)
  else prev

/-- Number of nodes currently assigned the value v. -/
def countValue (n : ℕ) (a : Fin n → Option ℕ) (v : Option ℕ) : ℕ :=
  (Finset.univ.filter (fun i => a i = v)).card

theorem countValue_comp_equiv (n : ℕ) (a : Fin n → Option ℕ)
    (e : Equiv.Perm (Fin n)) (v : Option ℕ) :
    countValue n (a ∘ e) v = countValue n a v := by
  unfold countValue
  rw [← Finset.card_map e.toEmbedding]
  congr 1
  ext i
  simp only [Finset.mem_map, Finset.mem_filter, Finset.mem_univ, true_and,
    Equiv.coe_toEmbedding, Function.comp_apply]
  constructor
  · rintro ⟨j, hj, rfl⟩
    exact hj
  · intro hi
    exact ⟨e.symm i, by simpa using hi, by simp⟩

theorem fyLoop_countValue (n : ℕ) (js : ℕ → ℕ) (v : Option ℕ) :
    ∀ (k : ℕ) (a : Fin n → Option ℕ),
      countValue n (fyLoop n js a k) v = countValue n a v := by
  intro k
  induction k with
  | zero => intro a; rfl
  | succ k ih =>
    intro a
    by_cases h : k + 1 < n
    · rw [show fyLoop n js a (k + 1) = fyLoop n js (a ∘ Equiv.swap ⟨k + 1, h⟩
          ⟨js (k + 1) % (k + 2), by
            have hj : js (k + 1) % (k + 2) < k + 2 :=
              Nat.mod_lt _ (Nat.succ_pos _)
            omega⟩) k by simp [fyLoop, h]]
      rw [ih, countValue_comp_equiv]
    · rw [show fyLoop n js a (k + 1) = fyLoop n js a k by simp [fyLoop, h]]
      exact ih a

theorem fyLoop_exists_preimage (n : ℕ) (js : ℕ → ℕ) :
    ∀ (k : ℕ) (a : Fin n → Option ℕ) (i : Fin n),
      ∃ i0, fyLoop n js a k i = a i0 := by
  intro k
  induction k with
  | zero => intro a i; exact ⟨i, rfl⟩
  | succ k ih =>
    intro a i
    by_cases h : k + 1 < n
    · rw [show fyLoop n js a (k + 1) = fyLoop n js (a ∘ Equiv.swap ⟨k + 1, h⟩
          ⟨js (k + 1) % (k + 2), by
            have hj : js (k + 1) % (k + 2) < k + 2 :=
              Nat.mod_lt _ (Nat.succ_pos _)
            omega⟩) k by simp [fyLoop, h]]
      obtain ⟨i0, h0⟩ := ih (a ∘ Equiv.swap ⟨k + 1, h⟩
        ⟨js (k + 1) % (k + 2), by
          have hj : js (k + 1) % (k + 2) < k + 2 :=
            Nat.mod_lt _ (Nat.succ_pos _)
          omega⟩) i
      exact ⟨_, h0⟩
    · rw [show fyLoop n js a (k + 1) = fyLoop n js a k by simp [fyLoop, h]]
      exact ih a i

/-- C4: for N nodes and M >= 1 labels, initialization fills entry i with
i mod M and Fisher-Yates shuffles; the result is a rearrangement of the
initial array (identical label-frequency histogram), and every node's
assigned label index lies in [0, M). -/
theorem C4_init_shuffle_histogram (n m : ℕ) (js : ℕ → ℕ) (hm : 1 ≤ m) :
    (∀ v, countValue n (buckyInitSkills n m js) v
        = countValue n (initSkillsArray n m) v) ∧
    (∀ i : Fin n, ∃ k, k < m ∧ buckyInitSkills n m js i = some k) := by
  constructor
  · intro v
    exact fyLoop_countValue n js v (n - 1) (initSkillsArray n m)
  · intro i
    obtain ⟨i0, h0⟩ :=
      fyLoop_exists_preimage n js (n - 1) (initSkillsArray n m) i
    refine ⟨i0.val % m, Nat.mod_lt _ hm, ?_⟩
    rw [buckyInitSkills, h0]
    unfold initSkillsArray jsMod
    rw [if_neg (by omega)]

/-- Witness for C4: 12 nodes, 4 labels, a concrete draw sequence; the
shuffled histogram matches the modular fill at value 2, and node 5 holds
an in-range label. -/
theorem C4_init_shuffle_histogram_witness :
    countValue 12 (buckyInitSkills 12 4 (fun i => i * 7 + 3)) (some 2)
        = countValue 12 (initSkillsArray 12 4) (some 2) ∧
    ∃ k, k < 4 ∧ buckyInitSkills 12 4 (fun i => i * 7 + 3) ⟨5, by omega⟩
        = some k :=
  ⟨(C4_init_shuffle_histogram 12 4 (fun i => i * 7 + 3) (by omega)).1 (some 2),
   (C4_init_shuffle_histogram 12 4 (fun i => i * 7 + 3) (by omega)).2
     ⟨5, by omega⟩⟩

/- Reassignment of marked (hidden) nodes. -/

/-- Loop body of the nodesToUpdate effect: walks the marked node indices
in order; the k-th marked node overwrites its entry with the fresh draw
Math.floor(Math.random() * skills.length), modeled as draws k % m. -/
def reassignLoop (m : ℕ) (draws : ℕ → ℕ) : ℕ → List ℕ → List ℕ → List ℕ
  | _, [], cur => cur
  | k, idx :: rest, cur =>
    reassignLoop m draws (k + 1) rest (cur.set idx (draws k % m))

/-- The nodesToUpdate effect: copies the current assignment and overwrites
each marked node with a freshly drawn label index. -/
def reassignSkills (m : ℕ) (draws : ℕ → ℕ) (marked cur : List ℕ) : List ℕ :=
  reassignLoop m draws 0 marked cur

theorem reassignLoop_length (m : ℕ) (draws : ℕ → ℕ) :
    ∀ (marked : List ℕ) (k : ℕ) (cur : List ℕ),
      (reassignLoop m draws k marked cur).length = cur.length := by
  intro marked
  induction marked with
  | nil => intro k cur; rfl
  | cons a rest ih =>
    intro k cur
    rw [show reassignLoop m draws k (a :: rest) cur
        = reassignLoop m draws (k + 1) rest (cur.set a (draws k % m)) from rfl]
    rw [ih, List.length_set]

theorem reassignLoop_get_of_notMem (m : ℕ) (draws : ℕ → ℕ) :
    ∀ (marked : List ℕ) (k : ℕ) (cur : List ℕ) (idx : ℕ), idx ∉ marked →
      (reassignLoop m draws k marked cur).get? idx = cur.get? idx := by
  intro marked
  induction marked with
  | nil => intro k cur idx _; rfl
  | cons a rest ih =>
    intro k cur idx hidx
    have hne : a ≠ idx := fun h => hidx (h ▸ List.mem_cons_self a rest)
    have hrest : idx ∉ rest := fun h => hidx (List.mem_cons_of_mem a h)
    rw [show reassignLoop m draws k (a :: rest) cur
        = reassignLoop m draws (k + 1) rest (cur.set a (draws k % m)) from rfl]
    rw [ih (k + 1) (cur.set a (draws k % m)) idx hrest]
    exact List.get?_set_ne _ cur hne

theorem reassignLoop_get_of_mem (m : ℕ) (draws : ℕ → ℕ) :
    ∀ (marked : List ℕ) (k : ℕ) (cur : List ℕ) (idx : ℕ), idx ∈ marked →
      idx < cur.length →
      ∃ j, (reassignLoop m draws k marked cur).get? idx = some (draws j % m) := by
  intro marked
  induction marked with
  | nil => intro k cur idx h; exact absurd h (List.not_mem_nil idx)
  | cons a rest ih =>
    intro k cur idx hmem hlen
    rw [show reassignLoop m draws k (a :: rest) cur
        = reassignLoop m draws (k + 1) rest (cur.set a (draws k % m)) from rfl]
    by_cases hrest : idx ∈ rest
    · exact ih (k + 1) (cur.set a (draws k % m)) idx hrest
        (by rw [List.length_set]; exact hlen)
    · have ha : a = idx := by
        rcases List.mem_cons.mp hmem with h | h
        · exact h.symm
        · exact absurd h hrest
      refine ⟨k, ?_⟩
      rw [reassignLoop_get_of_notMem m draws rest (k + 1)
        (cur.set a (draws k % m)) idx hrest, ha]
      exact List.get?_set_eq_of_lt _ hlen

/-- C6: reassigning a set of marked (hidden) nodes gives every marked node
a freshly drawn label index in [0, M) (repeats permitted), and leaves the
label of every node outside the marked set unchanged. -/
theorem C6_reassign_marked_nodes (m : ℕ) (draws : ℕ → ℕ)
    (marked cur : List ℕ) (idx : ℕ) :
    (idx ∉ marked →
      (reassignSkills m draws marked cur).get? idx = cur.get? idx) ∧
    (1 ≤ m → idx ∈ marked → idx < cur.length →
      ∃ j, (reassignSkills m draws marked cur).get? idx = some (draws j % m) ∧
        draws j % m < m) := by
  constructor
  · intro h
    exact reassignLoop_get_of_notMem m draws marked 0 cur idx h
  · intro hm hmem hlen
    obtain ⟨j, hj⟩ := reassignLoop_get_of_mem m draws marked 0 cur idx hmem hlen
    exact ⟨j, hj, Nat.mod_lt _ hm⟩

/-- Witness for C6: catalog of 3 labels, marked nodes 0 and 2 out of three
nodes; node 1 keeps its label, node 2 receives a fresh in-range draw. -/
theorem C6_reassign_marked_nodes_witness :
    (reassignSkills 3 (fun j => j + 5) [0, 2] [9, 9, 9]).get? 1 = some 9 ∧
    ∃ j, (reassignSkills 3 (fun j => j + 5) [0, 2] [9, 9, 9]).get? 2
        = some ((j + 5) % 3) ∧ (j + 5) % 3 < 3 :=
  ⟨(C6_reassign_marked_nodes 3 (fun j => j + 5) [0, 2] [9, 9, 9] 1).1
     (by decide),
   (C6_reassign_marked_nodes 3 (fun j => j + 5) [0, 2] [9, 9, 9] 2).2
     (by decide) (by decide) (by decide)⟩

/- Render-time label lookup of the C60 scene. -/

/-- The render-time index computation of the C60 scene: the stored entry
reduced modulo skills.length when defined, with fallback index 0 for an
undefined entry (nodeSkills[i] !== undefined ? nodeSkills[i] % len : 0). -/
def renderSkillIndex (nodeSkills : List ℕ) (i m : ℕ) : ℕ :=
  match nodeSkills.get? i with
  | some s => s % m
  | none => 0

/-- JavaScript || on optional strings: an empty (falsy) or missing first
operand falls through to the second. -/
def jsStrOr (a b : Option String) : Option String :=
  match a with
  | some s => if s = "" then b else some s
  | none => b

/-- The displayed text of node i: skills[skillIndex] || skills[0]; none
models undefined (nothing displayed). -/
def renderNodeText (skills : List String) (nodeSkills : List ℕ) (i : ℕ) :
    Option String :=
  jsStrOr (skills.get? (renderSkillIndex nodeSkills i skills.length))
    (skills.get? 0)

/-- C10: at render time in the C60 scene, with a non-empty catalog of M
labels the skill index used for lookup is always in [0, M) — also before
the assignment array is filled — and every displayed node shows a
string from the catalog. -/
theorem C10_render_index_in_range (skills : List String)
    (nodeSkills : List ℕ) (i : ℕ) (h : 1 ≤ skills.length) :
    renderSkillIndex nodeSkills i skills.length < skills.length ∧
    ∃ t, renderNodeText skills nodeSkills i = some t ∧ t ∈ skills := by
  have hidx : renderSkillIndex nodeSkills i skills.length < skills.length := by
    unfold renderSkillIndex
    cases nodeSkills.get? i with
    | none => simpa using h
    | some s => exact Nat.mod_lt _ h
  refine ⟨hidx, ?_⟩
  unfold renderNodeText
  rw [List.get?_eq_get hidx, List.get?_eq_get h]
  show ∃ t,
      (if skills.get ⟨renderSkillIndex nodeSkills i skills.length, hidx⟩ = ""
        then some (skills.get ⟨0, h⟩)
        else some (skills.get
          ⟨renderSkillIndex nodeSkills i skills.length, hidx⟩)) = some t ∧
      t ∈ skills
  by_cases he : skills.get ⟨renderSkillIndex nodeSkills i skills.length, hidx⟩
      = ""
  · rw [if_pos he]
    exact ⟨skills.get ⟨0, h⟩, rfl, List.get_mem skills 0 h⟩
  · rw [if_neg he]
    exact ⟨skills.get ⟨renderSkillIndex nodeSkills i skills.length, hidx⟩,
      rfl, List.get_mem skills _ hidx⟩

/-- Witness for C10: a two-label catalog before the assignment array is
filled (nodeSkills empty). -/
theorem C10_render_index_in_range_witness :
    renderSkillIndex [] 0 (["React", "Vite"] : List String).length
        < (["React", "Vite"] : List String).length ∧
    ∃ t, renderNodeText ["React", "Vite"] [] 0 = some t ∧
      t ∈ (["React", "Vite"] : List String) :=
  C10_render_index_in_range ["React", "Vite"] [] 0 (by decide)

/- Empty label catalog. -/

/-- C8 counterexample: in the C60 BuckyBall variant the initialization
effect is not guarded on a non-empty catalog; with an empty catalog the
assignment array does not stay empty — it is filled with NaN entries
(i % 0, modeled none) — so the claim fails as stated on this variant. -/
theorem C8_counterexample_bucky_fills_nan :
    buckyInitEffect [] 60 0 (fun j => j) ≠ [] ∧
    (buckyInitEffect [] 60 0 (fun j => j)).get? 0 = some none := by
  have hdef : buckyInitEffect [] 60 0 (fun j => j)
      = List.ofFn (buckyInitSkills 60 0 (fun j => j)) := rfl
  have hlen : (buckyInitEffect [] 60 0 (fun j => j)).length = 60 := by
    rw [hdef, List.length_ofFn]
  constructor
  · intro hc
    rw [hc] at hlen
    simp at hlen
  · rw [hdef]
    rw [List.get?_eq_get (by simp)]
    congr 1

/-- C8 (amended): with an empty label catalog the AILOGO variant skips
initialization (the assignment stays as it was, i.e. empty) and renders no
text; the BuckyBall C60 variant instead fills the assignment array with
NaN label indices (i % 0, modeled none), though its nodes also render no
text because every catalog lookup is undefined. -/
theorem C8_empty_catalog_amended (prev : List ℕ) (nVerts n i : ℕ)
    (draws js : ℕ → ℕ) (nodeSkills : List ℕ) :
    ailogoInitEffect prev nVerts 0 draws = prev ∧
    (buckyInitEffect [] n 0 js).length = n ∧
    (i < n → (buckyInitEffect [] n 0 js).get? i = some none) ∧
    renderNodeText [] nodeSkills i = none := by
  have hdef : buckyInitEffect [] n 0 js
      = List.ofFn (buckyInitSkills n 0 js) := rfl
  refine ⟨?_, ?_, ?_, ?_⟩
  · unfold ailogoInitEffect
    rw [if_neg]
    intro hc
    exact absurd hc.2 (by omega)
  · rw [hdef, List.length_ofFn]
  · intro hi
    rw [hdef]
    rw [List.get?_eq_get (by simpa using hi)]
    congr 1
    rw [List.get_ofFn]
    obtain ⟨i0, h0⟩ := fyLoop_exists_preimage n js (n - 1)
      (initSkillsArray n 0) _
    rw [show buckyInitSkills n 0 js _ = _ from h0]
    unfold initSkillsArray jsMod
    rw [if_pos rfl]
  · unfold renderNodeText jsStrOr
    cases hsi : (([] : List String)).get?
        (renderSkillIndex nodeSkills i ([] : List String).length) with
    | none => rfl
    | some s => simp at hsi

/-- Witness for C8 (amended) at three nodes. -/
theorem C8_empty_catalog_amended_witness :
    ailogoInitEffect [] 3 0 (fun j => j) = [] ∧
    (buckyInitEffect [] 3 0 (fun j => j)).length = 3 ∧
    (buckyInitEffect [] 3 0 (fun j => j)).get? 0 = some none ∧
    renderNodeText [] [] 0 = none := by
  obtain ⟨h1, h2, h3, h4⟩ :=
    C8_empty_catalog_amended [] 3 3 0 (fun j => j) (fun j => j) []
  exact ⟨h1, h2, h3 (by omega), h4⟩

/- Vertex deduplication invariants. -/

/-- Euclidean distance between two real 3-vectors
(THREE.Vector3.distanceTo). -/
noncomputable def dist3 (u v : RVec3) : ℝ := norm3 (sub3 u v)

/-- The AILOGO constant VERTEX_PROXIMITY_THRESHOLD = 0.5. -/
noncomputable def VERTEX_PROXIMITY_THRESHOLD : ℝ := 0.5

/-- The AILOGO proximity-scan deduplication: a candidate is kept only if no
already-kept vertex lies within the threshold distance of it. -/
noncomputable def proximityDedup (thr : ℝ) (l : List RVec3) : List RVec3 :=
  l.foldl (fun uniq v =>
    if ∃ u ∈ uniq, dist3 u v < thr then uniq else uniq ++ [v]) []

theorem proximityDedup_foldl_pairwise (thr : ℝ) :
    ∀ (l acc : List RVec3), acc.Pairwise (fun u v => thr ≤ dist3 u v) →
      (l.foldl (fun uniq v =>
          if ∃ u ∈ uniq, dist3 u v < thr then uniq else uniq ++ [v])
        acc).Pairwise (fun u v => thr ≤ dist3 u v) := by
  intro l
  induction l with
  | nil => intro acc h; exact h
  | cons v t ih =>
    intro acc hacc
    rw [List.foldl_cons]
    apply ih
    by_cases hex : ∃ u ∈ acc, dist3 u v < thr
    · rw [if_pos hex]
      exact hacc
    · rw [if_neg hex]
      rw [List.pairwise_append]
      push_neg at hex
      refine ⟨hacc, List.pairwise_singleton _ v, ?_⟩
      intro a ha b hb
      rw [List.mem_singleton] at hb
      subst hb
      exact hex a ha

/-- C7: in the proximity-scan strategy every pair of distinct vertices of
the deduplicated output is at least the configured threshold (0.5) apart;
in the C60 rounded-key strategy no two output vertices share the same
coordinates rounded to 5 decimal places (the same toFixed(5) key), for
any radius. -/
theorem C7_dedup_separation (l : List RVec3) (radius : ℝ) :
    (proximityDedup VERTEX_PROXIMITY_THRESHOLD l).Pairwise
      (fun u v => VERTEX_PROXIMITY_THRESHOLD ≤ dist3 u v) ∧
    ((getC60Vertices radius).map c60Key).Nodup := by
  constructor
  · exact proximityDedup_foldl_pairwise VERTEX_PROXIMITY_THRESHOLD l []
      (List.Pairwise.nil)
  · exact dedupByKey_keys_nodup c60Key _

end AnimatedWebsite
